import Mathlib

/-!
Shallow embedding of the streaming-availability normalization core of
`src/movie_lookup.py` (the `parse_streaming`, `_format_date` and
`truncate_plot` functions), together with theorems settling the frozen
claims about that code.

Modelling conventions:
* Python floats (price amounts, timestamps) are modelled as exact numbers
  (`ℚ` for amounts, `ℤ` for Unix timestamps); Python's `float` parsing and
  two-decimal formatting are modelled as exact rational rounding to cents.
* A raw streaming option dict is modelled by `RawOffer`: the JSON-level
  defaulting already performed by the Python code
  (`opt.get("service", {}).get("name", "Unknown")`,
  `price_obj.get("currency", "USD")`) is assumed folded into the fields,
  and `price = none` models "no price object or no amount key".
* `datetime.fromtimestamp` / `strftime` are modelled as the proleptic
  Gregorian civil-date conversion at UTC (the standard days-to-civil
  algorithm), with English month names as `strftime("%B")` produces.
* Python dicts keyed by platform are modelled as association lists in
  insertion order (`updateAssoc` updates in place, exactly like a Python
  dict assignment keeps the key position); Python's stable `sorted` is
  modelled by a stable insertion sort (`sortByPrio`).
-/

/-- A raw streaming option, as consumed by `parse_streaming` after the
JSON-level `get` defaulting.  `otype = ""` models a missing/empty `"type"`
field; `price = some (a, cur)` models a price object with amount `a` and
currency `cur`; absent `availableSince`/`expiresOn` keys are `none`. -/
structure RawOffer where
  platform : String
  otype : String
  price : Option (ℚ × String)
  availableSince : Option ℤ
  expiresOn : Option ℤ
deriving DecidableEq, Repr

/-- The running-best tuple `(prio, price_amount, price_formatted, mtype, date_str)`
stored in the `best` dict of `parse_streaming`. -/
structure BestEntry where
  prio : ℕ
  price_amount : Option ℚ
  price_formatted : String
  mtype : String
  date_str : String
deriving DecidableEq, Repr

/-- The output record `{platform, type, label, price, date}` appended to
`results` by `parse_streaming`. -/
structure NormalizedOffer where
  platform : String
  type : String
  label : String
  price : String
  date : String
deriving DecidableEq, Repr

/-- Model of `type_priority.get(mtype, 99)`: the fixed priority rank per offer type. -/
def type_priority (t : String) : ℕ :=
  if t = "subscription" then 0
  else if t = "free" then 1
  else if t = "ads" then 2
  else if t = "rent" then 3
  else if t = "buy" then 4
  else if t = "addon" then 5
  else 99

/-- The six recognized offer types (the keys of `type_priority`). -/
def recognizedTypes : List String :=
  ["subscription", "free", "ads", "rent", "buy", "addon"]

/-- Model of `label_map.get(mtype)`: the fixed human label per recognized type. -/
def label_map (t : String) : Option String :=
  if t = "subscription" then some "Subscription"
  else if t = "free" then some "Free"
  else if t = "ads" then some "Free with Ads"
  else if t = "rent" then some "Rent"
  else if t = "buy" then some "Buy"
  else if t = "addon" then some "Add-on"
  else none

/-- Python `str.capitalize()` restricted to ASCII: first character
uppercased, all remaining characters lowercased. -/
def pyCapitalize (s : String) : String :=
  match s.data with
  | [] => ""
  | c :: cs => String.mk (c.toUpper :: cs.map Char.toLower)

/-- Model of `label_map.get(mtype, mtype.capitalize())`: the display label. -/
def labelOf (t : String) : String :=
  (label_map t).getD (pyCapitalize t)

/-- Model of Python's `f"{x:.2f}"` on an exact rational amount: round to
the nearest cent (half away from zero upward) and print with exactly two
digits after the decimal point. -/
def formatFixed2 (q : ℚ) : String :=
  let c : ℤ := Rat.floor (q * 100 + 1 / 2)
  let sign := if c < 0 then "-" else ""
  let n := c.natAbs
  sign ++ toString (n / 100) ++ "." ++
    String.mk [Nat.digitChar (n / 10 % 10), Nat.digitChar (n % 10)]

/-- Model of `price_amount`: `float(price_obj["amount"])` when a price object with an
amount is present, else `None`. -/
def price_amount (o : RawOffer) : Option ℚ :=
  o.price.map Prod.fst

/-- Model of `price_formatted`: dollar-prefixed two-decimal formatting for `"USD"`,
otherwise, and `""` when there is no price amount (lines 254-260). -/
def price_formatted (o : RawOffer) : String :=
  match o.price with
  | some (a, cur) =>
      if cur = "USD" then "$" ++ formatFixed2 a else formatFixed2 a ++ " " ++ cur
  | none => ""

/-- Year-of-era from day-of-era (standard civil-from-days conversion). -/
def yoeOfDoe (doe : ℕ) : ℕ :=
  (doe - doe / 1460 + doe / 36524 - doe / 146096) / 365

/-- Day-of-year from day-of-era. -/
def doyOfDoe (doe : ℕ) : ℕ :=
  doe - (365 * yoeOfDoe doe + yoeOfDoe doe / 4 - yoeOfDoe doe / 100)

/-- Shifted month index (0 = March) from day-of-year. -/
def mpOfDoy (doy : ℕ) : ℕ :=
  (5 * doy + 2) / 153

/-- Day-of-month from day-of-year. -/
def dayOfDoy (doy : ℕ) : ℕ :=
  doy - (153 * mpOfDoy doy + 2) / 5 + 1

/-- Calendar month (1-12) from the shifted month index. -/
def monthOfMp (mp : ℕ) : ℕ :=
  if mp < 10 then mp + 3 else mp - 9

/-- Proleptic Gregorian `(year, month, day)` from a day count relative to
1970-01-01, modelling the calendar conversion inside
`datetime.fromtimestamp` (taken at UTC). -/
def civilFromDays (days : ℤ) : ℤ × ℕ × ℕ :=
  let z := days + 719468
  let era := z.ediv 146097
  let doe := (z.emod 146097).toNat
  let yoe := yoeOfDoe doe
  let doy := doyOfDoe doe
  let mp := mpOfDoy doy
  let d := dayOfDoy doy
  let m := monthOfMp mp
  let y : ℤ := (yoe : ℤ) + era * 400
  (if m ≤ 2 then y + 1 else y, m, d)

/-- English month names, as produced by `strftime("%B")`. -/
def monthName : ℕ → String
  | 1 => "January"
  | 2 => "February"
  | 3 => "March"
  | 4 => "April"
  | 5 => "May"
  | 6 => "June"
  | 7 => "July"
  | 8 => "August"
  | 9 => "September"
  | 10 => "October"
  | 11 => "November"
  | 12 => "December"
  | _ => ""

/-- The ordinal-suffix computation of `_format_date` (line 228):
`"th" if 11 <= day <= 13 else {1: "st", 2: "nd", 3: "rd"}.get(day % 10, "th")`. -/
def ordinalSuffix (day : ℕ) : String :=
  if 11 ≤ day ∧ day ≤ 13 then "th"
  else if day % 10 = 1 then "st"
  else if day % 10 = 2 then "nd"
  else if day % 10 = 3 then "rd"
  else "th"

/-- Model of `_format_date(ts)` (lines 224-229): format a Unix timestamp as
`'February 3rd, 2026'`.  `datetime.fromtimestamp` is modelled at UTC via
`civilFromDays` applied to the floor-divided day count. -/
def _format_date (ts : ℤ) : String :=
  let c := civilFromDays (ts.ediv 86400)
  monthName c.2.1 ++ " " ++ toString c.2.2 ++ ordinalSuffix c.2.2 ++ ", " ++ toString c.1

/-- Models the Python condition `ts and ts > now` on an optional timestamp:
`none` and `0` are falsy, otherwise the comparison is evaluated.  Returns
the timestamp when the whole condition is true. -/
def futureTs (t? : Option ℤ) (now : ℤ) : Option ℤ :=
  match t? with
  | some t => if t ≠ 0 ∧ now < t then some t else none
  | none => none

/-- Model of `date_str` (lines 262-268): the display availability string of one raw
offer relative to the reference time `now`. -/
def date_str (o : RawOffer) (now : ℤ) : String :=
  match futureTs o.availableSince now with
  | some a => _format_date a
  | none =>
    match futureTs o.expiresOn now with
    | some e => "until " ++ _format_date e
    | none => ""

/-- The tuple stored into `best[platform]` for one raw offer
(lines 270-278). -/
def mkEntry (o : RawOffer) (now : ℤ) : BestEntry :=
  { prio := type_priority o.otype
    price_amount := price_amount o
    price_formatted := price_formatted o
    mtype := o.otype
    date_str := date_str o now }

/-- Model of `best.get(platform)` on the insertion-ordered association list. -/
def lookupA : List (String × BestEntry) → String → Option BestEntry
  | [], _ => none
  | (k, v) :: rest, key => if k = key then some v else lookupA rest key

/-- Model of `best[platform] = value` on the insertion-ordered association list: an
existing key keeps its position (as in a Python dict), a new key is
appended at the end. -/
def updateAssoc : List (String × BestEntry) → String → BestEntry → List (String × BestEntry)
  | [], k, v => [(k, v)]
  | (k', v') :: rest, k, v =>
      if k' = k then (k, v) :: rest else (k', v') :: updateAssoc rest k v

/-- One iteration of the `for opt in options` loop of `parse_streaming`
(lines 248-278): skip untyped offers, then insert or conditionally replace
the running best entry for the offer's platform. -/
def step (now : ℤ) (best : List (String × BestEntry)) (o : RawOffer) :
    List (String × BestEntry) :=
  if o.otype = "" then best
  else
    let e := mkEntry o now
    match lookupA best o.platform with
    | none => updateAssoc best o.platform e
    | some cur =>
      if e.prio < cur.prio then updateAssoc best o.platform e
      else if e.prio = cur.prio then
        match price_amount o, cur.price_amount with
        | some _, none => updateAssoc best o.platform e
        | some p, some c => if p < c then updateAssoc best o.platform e else best
        | none, _ => best
      else best

/-- The whole offer loop: the final `best` dict as an association list in
insertion order. -/
def buildBest (now : ℤ) (offers : List RawOffer) : List (String × BestEntry) :=
  offers.foldl (step now) []

/-- The restriction of `step` to a single platform: the evolution of one
dict slot under one (non-skipped) offer of that platform.  `none` is the
state before the platform was first inserted. -/
def stepG (now : ℤ) (cur? : Option BestEntry) (o : RawOffer) : Option BestEntry :=
  match cur? with
  | none => some (mkEntry o now)
  | some cur =>
    let e := mkEntry o now
    if e.prio < cur.prio then some e
    else if e.prio = cur.prio then
      match price_amount o, cur.price_amount with
      | some _, none => some e
      | some p, some c => if p < c then some e else some cur
      | none, _ => some cur
    else some cur

/-- The effect of one offer on the ordered key list of the `best` dict. -/
def keyStep (acc : List String) (o : RawOffer) : List String :=
  if o.otype = "" then acc
  else if o.platform ∈ acc then acc else acc ++ [o.platform]

/-- Stable insertion of one keyed entry after every entry of priority less
than or equal to its own. -/
def insertStable (x : String × BestEntry) :
    List (String × BestEntry) → List (String × BestEntry)
  | [] => [x]
  | y :: ys => if y.2.prio ≤ x.2.prio then y :: insertStable x ys else x :: y :: ys

/-- Model of `sorted(best, key=lambda p: best[p][0])`: Python's `sorted` is stable,
so it is modelled by a stable insertion sort over the insertion-ordered
association list. -/
def sortByPrio (l : List (String × BestEntry)) : List (String × BestEntry) :=
  l.foldl (fun acc x => insertStable x acc) []

/-- The `results.append({...})` record built for one platform
(lines 291-297). -/
def toNormalized (k : String) (e : BestEntry) : NormalizedOffer :=
  { platform := k
    type := e.mtype
    label := labelOf e.mtype
    price := e.price_formatted
    date := e.date_str }

/-- Model of `parse_streaming(data)` (lines 232-298).  Here `none` models a falsy
payload (`if not data: return []`, e.g. a failed fetch); the list models
`data.get("streamingOptions", {}).get("us", [])`; the reference time
`now = datetime.now()` is passed explicitly. -/
def parse_streaming (now : ℤ) (data : Option (List RawOffer)) :
    List NormalizedOffer :=
  match data with
  | none => []
  | some options =>
    if options.isEmpty then []
    else (sortByPrio (buildBest now options)).map fun kv => toNormalized kv.1 kv.2

/-- Python `plot.replace("...", ".")`: non-overlapping, left-to-right. -/
def replaceEllipsis : List Char → List Char
  | '.' :: '.' :: '.' :: rest => '.' :: replaceEllipsis rest
  | c :: rest => c :: replaceEllipsis rest
  | [] => []

/-- Worker for Python `str.split(". ")`: non-overlapping, left-to-right,
keeping empty fragments. -/
def splitGo (acc : List Char) : List Char → List (List Char)
  | '.' :: ' ' :: rest => acc.reverse :: splitGo [] rest
  | c :: rest => splitGo (c :: acc) rest
  | [] => [acc.reverse]

/-- Python `s.split(". ")`. -/
def splitDotSpace (s : List Char) : List (List Char) :=
  splitGo [] s

/-- Python `s.endswith(".")`. -/
def endsWithDot (l : List Char) : Bool :=
  decide (l.getLast? = some '.')

/-- Model of `truncate_plot(plot, max_sentences=3)` (lines 301-311). -/
def truncate_plot (plot : String) (max_sentences : ℕ := 3) : String :=
  if plot = "" ∨ plot = "N/A" then plot
  else
    let sentences := splitDotSpace (replaceEllipsis plot.data)
    if sentences.length ≤ max_sentences then plot
    else
      let truncated := List.intercalate ['.', ' '] (sentences.take max_sentences)
      let truncated := if endsWithDot truncated then truncated else truncated ++ ['.']
      String.mk truncated

/-- The per-platform group a claim quantifies over: the input offers on
platform `P` that are not skipped by the `if not mtype: continue` guard. -/
def offerGroup (offers : List RawOffer) (P : String) : List RawOffer :=
  offers.filter fun o => decide (o.platform = P ∧ o.otype ≠ "")

/-- The platform names of the non-skipped input offers, in input order. -/
def activePlatforms (offers : List RawOffer) : List String :=
  (offers.filter fun o => decide (o.otype ≠ "")).map RawOffer.platform

/-- The distinct platform names of the non-skipped input offers, in order
of first appearance (= the key order of the `best` dict). -/
def firstOccurrences (offers : List RawOffer) : List String :=
  offers.foldl keyStep []

/-- The ordinal-suffix rule as worded by the spec: day mod 100 in [11,13]
gives "th"; otherwise day mod 10 of 1, 2, 3 gives "st", "nd", "rd" and
anything else gives "th". -/
def specOrdinalSuffix (day : ℕ) : String :=
  if 11 ≤ day % 100 ∧ day % 100 ≤ 13 then "th"
  else if day % 10 = 1 then "st"
  else if day % 10 = 2 then "nd"
  else if day % 10 = 3 then "rd"
  else "th"

/-- Case-sensitive ordinal (code-point-wise lexicographic) `≤` on strings,
as character lists. -/
def ordinalLeB : List Char → List Char → Bool
  | [], _ => true
  | _ :: _, [] => false
  | a :: as, b :: bs =>
      if a.val < b.val then true
      else if b.val < a.val then false
      else ordinalLeB as bs

/-- The output order claimed by the spec: ascending priority rank, ties
broken by platform name ascending under the case-sensitive ordinal string
order. -/
def specOutOrder (a b : NormalizedOffer) : Prop :=
  type_priority a.type < type_priority b.type ∨
    (type_priority a.type = type_priority b.type ∧
      ordinalLeB a.platform.data b.platform.data = true)

instance : DecidableRel specOutOrder := fun a b => by
  unfold specOutOrder; infer_instance

/-- The "ends in exactly one `.`" property claimed of truncated plots: the
last character is a dot and the character before it (if any) is not. -/
def endsInExactlyOneDot (s : String) : Prop :=
  s.data.getLast? = some '.' ∧ s.data.dropLast.getLast? ≠ some '.'

/-- Example offer: `(buy, $9.99)` on platform `"Shop"`. -/
def exBuyPriced : RawOffer := ⟨"Shop", "buy", some (999 / 100, "USD"), none, none⟩

/-- Example offer: `(buy, no price)` on platform `"Shop"`. -/
def exBuyNoPrice : RawOffer := ⟨"Shop", "buy", none, none, none⟩

/-- Example offer: `(rent, $3.99)` on platform `"Flix"`. -/
def exRentPriced : RawOffer := ⟨"Flix", "rent", some (399 / 100, "USD"), none, none⟩

/-- Example offer: `(subscription, no price)` on platform `"Flix"`. -/
def exSubNoPrice : RawOffer := ⟨"Flix", "subscription", none, none, none⟩

/-- Example offer: `(rent, $1.99)` on `"Flix"`, no time window. -/
def exEq1 : RawOffer := ⟨"Flix", "rent", some (199 / 100, "USD"), none, none⟩

/-- Example offer: `(rent, $1.99)` on `"Flix"`, with an expiry timestamp,
so its display metadata differs from `exEq1`'s. -/
def exEq2 : RawOffer := ⟨"Flix", "rent", some (199 / 100, "USD"), none, some 200⟩

/-- Example offer: a subscription on platform `"b"`. -/
def cexB : RawOffer := ⟨"b", "subscription", none, none, none⟩

/-- Example offer: a subscription on platform `"a"`. -/
def cexA : RawOffer := ⟨"a", "subscription", none, none, none⟩

/-! ### Association-list lemmas -/

lemma lookupA_updateAssoc_self (l : List (String × BestEntry)) (k : String) (v : BestEntry) :
    lookupA (updateAssoc l k v) k = some v := by
  induction l with
  | nil => simp [updateAssoc, lookupA]
  | cons hd tl ih =>
    obtain ⟨k', v'⟩ := hd
    by_cases h : k' = k
    · simp [updateAssoc, h, lookupA]
    · simp [updateAssoc, h, lookupA, ih]

lemma lookupA_updateAssoc_ne (l : List (String × BestEntry)) (k k' : String) (v : BestEntry)
    (h : k' ≠ k) : lookupA (updateAssoc l k v) k' = lookupA l k' := by
  induction l with
  | nil => simp [updateAssoc, lookupA, Ne.symm h]
  | cons hd tl ih =>
    obtain ⟨k₀, v₀⟩ := hd
    by_cases h₀ : k₀ = k
    · subst h₀
      simp [updateAssoc, lookupA, Ne.symm h]
    · simp only [updateAssoc, if_neg h₀, lookupA]
      by_cases h₁ : k₀ = k'
      · simp [h₁]
      · simp [h₁, ih]

lemma mem_updateAssoc {l : List (String × BestEntry)} {k : String} {v : BestEntry}
    {x : String × BestEntry} (hx : x ∈ updateAssoc l k v) : x = (k, v) ∨ x ∈ l := by
  induction l with
  | nil => simpa [updateAssoc] using hx
  | cons hd tl ih =>
    obtain ⟨k₀, v₀⟩ := hd
    by_cases h₀ : k₀ = k
    · simp only [updateAssoc, if_pos h₀, List.mem_cons] at hx
      rcases hx with h | h
      · exact Or.inl h
      · exact Or.inr (List.mem_cons_of_mem _ h)
    · simp only [updateAssoc, if_neg h₀, List.mem_cons] at hx
      rcases hx with h | h
      · exact Or.inr (by simp [h])
      · rcases ih h with h' | h'
        · exact Or.inl h'
        · exact Or.inr (List.mem_cons_of_mem _ h')

lemma lookupA_eq_none_iff (l : List (String × BestEntry)) (k : String) :
    lookupA l k = none ↔ k ∉ l.map Prod.fst := by
  induction l with
  | nil => simp [lookupA]
  | cons hd tl ih =>
    obtain ⟨k₀, v₀⟩ := hd
    by_cases h₀ : k₀ = k
    · simp [lookupA, h₀]
    · simp [lookupA, h₀, ih, Ne.symm h₀]

lemma lookupA_some_mem {l : List (String × BestEntry)} {k : String} {v : BestEntry}
    (h : lookupA l k = some v) : (k, v) ∈ l := by
  induction l with
  | nil => simp [lookupA] at h
  | cons hd tl ih =>
    obtain ⟨k₀, v₀⟩ := hd
    by_cases h₀ : k₀ = k
    · subst h₀
      have hv : v₀ = v := by simpa [lookupA] using h
      subst hv
      exact List.mem_cons_self _ _
    · simp only [lookupA, if_neg h₀] at h
      exact List.mem_cons_of_mem _ (ih h)

lemma map_fst_updateAssoc_mem (l : List (String × BestEntry)) (k : String) (v : BestEntry)
    (h : k ∈ l.map Prod.fst) :
    (updateAssoc l k v).map Prod.fst = l.map Prod.fst := by
  induction l with
  | nil => simp at h
  | cons hd tl ih =>
    obtain ⟨k₀, v₀⟩ := hd
    by_cases h₀ : k₀ = k
    · simp [updateAssoc, h₀]
    · simp only [List.map_cons, List.mem_cons] at h
      rcases h with h | h
      · exact absurd h.symm h₀
      · simp [updateAssoc, h₀, ih h]

lemma map_fst_updateAssoc_not_mem (l : List (String × BestEntry)) (k : String) (v : BestEntry)
    (h : k ∉ l.map Prod.fst) :
    (updateAssoc l k v).map Prod.fst = l.map Prod.fst ++ [k] := by
  induction l with
  | nil => simp [updateAssoc]
  | cons hd tl ih =>
    obtain ⟨k₀, v₀⟩ := hd
    simp only [List.map_cons, List.mem_cons] at h
    push_neg at h
    simp [updateAssoc, if_neg (Ne.symm h.1), ih h.2]

/-! ### Per-platform decomposition of the offer loop -/

lemma step_skip (now : ℤ) (b : List (String × BestEntry)) (o : RawOffer)
    (h : o.otype = "") : step now b o = b := by
  simp [step, h]

lemma lookupA_step_ne (now : ℤ) (b : List (String × BestEntry)) (o : RawOffer) (P : String)
    (h : o.platform ≠ P) : lookupA (step now b o) P = lookupA b P := by
  unfold step
  by_cases h0 : o.otype = ""
  · simp [h0]
  · simp only [if_neg h0]
    have hup := lookupA_updateAssoc_ne b o.platform P (mkEntry o now) (Ne.symm h)
    cases hcur : lookupA b o.platform with
    | none => simpa [hcur] using hup
    | some cur =>
      simp only [hcur]
      by_cases h1 : (mkEntry o now).prio < cur.prio
      · simpa [h1] using hup
      · by_cases h2 : (mkEntry o now).prio = cur.prio
        · simp only [if_neg h1, if_pos h2]
          cases hp : price_amount o with
          | none => simp
          | some p =>
            cases hc : cur.price_amount with
            | none => simpa using hup
            | some c =>
              by_cases h3 : p < c
              · simpa [h3] using hup
              · simp [h3]
        · simp [h1, h2]

lemma lookupA_step_eq (now : ℤ) (b : List (String × BestEntry)) (o : RawOffer)
    (h0 : o.otype ≠ "") :
    lookupA (step now b o) o.platform = stepG now (lookupA b o.platform) o := by
  unfold step stepG
  simp only [if_neg h0]
  have hup := lookupA_updateAssoc_self b o.platform (mkEntry o now)
  cases hcur : lookupA b o.platform with
  | none => simpa using hup
  | some cur =>
    by_cases h1 : (mkEntry o now).prio < cur.prio
    · simpa [h1] using hup
    · by_cases h2 : (mkEntry o now).prio = cur.prio
      · simp only [if_neg h1, if_pos h2]
        cases hp : price_amount o with
        | none => simp [hcur]
        | some p =>
          cases hc : cur.price_amount with
          | none => simpa using hup
          | some c =>
            by_cases h3 : p < c
            · simpa [h3] using hup
            · simp [h3, hcur]
      · simp [h1, h2, hcur]

lemma lookupA_foldl_step (now : ℤ) (P : String) :
    ∀ (l : List RawOffer) (b : List (String × BestEntry)),
      lookupA (l.foldl (step now) b) P =
        (l.filter fun o => decide (o.platform = P ∧ o.otype ≠ "")).foldl
          (stepG now) (lookupA b P) := by
  intro l
  induction l with
  | nil => intro b; simp
  | cons o rest ih =>
    intro b
    by_cases h0 : o.otype = ""
    · simp [List.foldl_cons, step_skip now b o h0, ih, List.filter_cons, h0]
    · by_cases h1 : o.platform = P
      · subst h1
        simp [List.foldl_cons, List.filter_cons, h0, ih, lookupA_step_eq now b o h0]
      · simp [List.foldl_cons, List.filter_cons, h0, h1, ih, lookupA_step_ne now b o P h1]

lemma lookupA_buildBest (now : ℤ) (offers : List RawOffer) (P : String) :
    lookupA (buildBest now offers) P = (offerGroup offers P).foldl (stepG now) none := by
  simpa [buildBest, offerGroup, lookupA] using lookupA_foldl_step now P offers []

/-! ### Characterization of the per-platform selection -/

lemma stepG_cases (now : ℤ) (b : BestEntry) (o : RawOffer) :
    ∃ b', stepG now (some b) o = some b' ∧
      (b' = b ∨ b' = mkEntry o now) ∧
      b'.prio ≤ b.prio ∧
      b'.prio ≤ type_priority o.otype ∧
      (b'.prio = b.prio → ∀ q, b.price_amount = some q →
        ∃ q', b'.price_amount = some q' ∧ q' ≤ q) ∧
      (type_priority o.otype = b'.prio → ∀ p, price_amount o = some p →
        ∃ q', b'.price_amount = some q' ∧ q' ≤ p) := by
  have hpe : (mkEntry o now).prio = type_priority o.otype := rfl
  have hpa : (mkEntry o now).price_amount = price_amount o := rfl
  by_cases h1 : (mkEntry o now).prio < b.prio
  · refine ⟨mkEntry o now, by simp [stepG, h1], Or.inr rfl, le_of_lt h1, le_of_eq hpe,
      ?_, ?_⟩
    · intro heq; exact absurd heq (ne_of_lt h1)
    · intro _ p hp; exact ⟨p, by rw [hpa]; exact hp, le_refl p⟩
  · by_cases h2 : (mkEntry o now).prio = b.prio
    · have hbo : b.prio = type_priority o.otype := h2.symm.trans hpe
      cases hp : price_amount o with
      | none =>
        refine ⟨b, by simp [stepG, h1, h2, hp], Or.inl rfl, le_refl _, le_of_eq hbo,
          ?_, ?_⟩
        · intro _ q hq; exact ⟨q, hq, le_refl q⟩
        · intro _ p hparg; simp at hparg
      | some p =>
        cases hc : b.price_amount with
        | none =>
          refine ⟨mkEntry o now, by simp [stepG, h1, h2, hp, hc], Or.inr rfl,
            le_of_eq h2, le_of_eq hpe, ?_, ?_⟩
          · intro _ q hq; simp at hq
          · intro _ p' hp'
            injection hp' with hp'
            subst hp'
            exact ⟨p, hp, le_refl p⟩
        | some c =>
          by_cases h3 : p < c
          · refine ⟨mkEntry o now, by simp [stepG, h1, h2, hp, hc, h3], Or.inr rfl,
              le_of_eq h2, le_of_eq hpe, ?_, ?_⟩
            · intro _ q hq
              injection hq with hq
              subst hq
              exact ⟨p, hp, le_of_lt h3⟩
            · intro _ p' hp'
              injection hp' with hp'
              subst hp'
              exact ⟨p, hp, le_refl p⟩
          · refine ⟨b, by simp [stepG, h1, h2, hp, hc, h3], Or.inl rfl, le_refl _,
              le_of_eq hbo, ?_, ?_⟩
            · intro _ q hq
              injection hq with hq
              subst hq
              exact ⟨c, hc, le_refl c⟩
            · intro _ p' hp'
              injection hp' with hp'
              subst hp'
              exact ⟨c, hc, le_of_not_lt h3⟩
    · refine ⟨b, by simp [stepG, h1, h2], Or.inl rfl, le_refl _, ?_, ?_, ?_⟩
      · rw [← hpe]; exact le_of_not_lt h1
      · intro _ q hq; exact ⟨q, hq, le_refl q⟩
      · intro heq; exact absurd (hpe.trans heq) h2

lemma foldl_stepG_spec (now : ℤ) :
    ∀ (G : List RawOffer) (b : BestEntry),
      ∃ b', G.foldl (stepG now) (some b) = some b' ∧
        (b' = b ∨ ∃ o ∈ G, b' = mkEntry o now) ∧
        b'.prio ≤ b.prio ∧
        (∀ o ∈ G, b'.prio ≤ type_priority o.otype) ∧
        (b'.prio = b.prio → ∀ q, b.price_amount = some q →
          ∃ q', b'.price_amount = some q' ∧ q' ≤ q) ∧
        (∀ o ∈ G, type_priority o.otype = b'.prio → ∀ p, price_amount o = some p →
          ∃ q', b'.price_amount = some q' ∧ q' ≤ p) := by
  intro G
  induction G with
  | nil =>
    intro b
    exact ⟨b, rfl, Or.inl rfl, le_refl _, by simp,
      fun _ q hq => ⟨q, hq, le_refl q⟩, by simp⟩
  | cons o rest ih =>
    intro b
    obtain ⟨b'', hstep, hprov'', hle'', hrank'', hpb'', hpo''⟩ := stepG_cases now b o
    obtain ⟨b', hfold, hprov, hleb, hrank, hpb, hpo⟩ := ih b''
    refine ⟨b', ?_, ?_, ?_, ?_, ?_, ?_⟩
    · rw [List.foldl_cons, hstep]; exact hfold
    · rcases hprov with h | ⟨o', ho', h⟩
      · rcases hprov'' with h' | h'
        · exact Or.inl (h.trans h')
        · exact Or.inr ⟨o, List.mem_cons_self _ _, h.trans h'⟩
      · exact Or.inr ⟨o', List.mem_cons_of_mem _ ho', h⟩
    · exact le_trans hleb hle''
    · intro o' ho'
      rcases List.mem_cons.mp ho' with h | h
      · subst h; exact le_trans hleb hrank''
      · exact hrank o' h
    · intro hpeq q hq
      have hb''b : b''.prio = b.prio := le_antisymm hle'' (hpeq ▸ hleb)
      obtain ⟨q'', hq'', hq''le⟩ := hpb'' hb''b q hq
      have hb'b'' : b'.prio = b''.prio := by omega
      obtain ⟨q', hq', hq'le⟩ := hpb hb'b'' q'' hq''
      exact ⟨q', hq', le_trans hq'le hq''le⟩
    · intro o' ho' heq p hp
      rcases List.mem_cons.mp ho' with h | h
      · subst h
        have h2 : b''.prio ≤ type_priority o'.otype := hrank''
        have hb''eq : type_priority o'.otype = b''.prio := by omega
        obtain ⟨q'', hq'', hq''le⟩ := hpo'' hb''eq p hp
        have hb'b'' : b'.prio = b''.prio := by omega
        obtain ⟨q', hq', hq'le⟩ := hpb hb'b'' q'' hq''
        exact ⟨q', hq', le_trans hq'le hq''le⟩
      · exact hpo o' h heq p hp

lemma groupBest_spec (now : ℤ) (G : List RawOffer) (hG : G ≠ []) :
    ∃ b, G.foldl (stepG now) none = some b ∧
      (∃ o ∈ G, b = mkEntry o now) ∧
      (∀ o ∈ G, b.prio ≤ type_priority o.otype) ∧
      (∀ o ∈ G, type_priority o.otype = b.prio → ∀ p, price_amount o = some p →
        ∃ q, b.price_amount = some q ∧ q ≤ p) := by
  cases G with
  | nil => exact absurd rfl hG
  | cons o rest =>
    obtain ⟨b, hfold, hprov, hle, hrank, hpb, hpo⟩ :=
      foldl_stepG_spec now rest (mkEntry o now)
    refine ⟨b, ?_, ?_, ?_, ?_⟩
    · rw [List.foldl_cons]; exact hfold
    · rcases hprov with h | ⟨o', ho', h⟩
      · exact ⟨o, List.mem_cons_self _ _, h⟩
      · exact ⟨o', List.mem_cons_of_mem _ ho', h⟩
    · intro o' ho'
      rcases List.mem_cons.mp ho' with h | h
      · subst h; exact hle
      · exact hrank o' h
    · intro o' ho' heq p hp
      rcases List.mem_cons.mp ho' with h | h
      · subst h
        obtain ⟨q, hq, hqle⟩ := hpb heq.symm p hp
        exact ⟨q, hq, hqle⟩
      · exact hpo o' h heq p hp

/-! ### The stable sort by priority -/

lemma insertStable_perm (x : String × BestEntry) (l : List (String × BestEntry)) :
    List.Perm (insertStable x l) (x :: l) := by
  induction l with
  | nil => simp [insertStable]
  | cons y ys ih =>
    by_cases h : y.2.prio ≤ x.2.prio
    · rw [insertStable, if_pos h]
      exact (ih.cons y).trans (List.Perm.swap x y ys)
    · rw [insertStable, if_neg h]

lemma sortFoldl_perm :
    ∀ (l acc : List (String × BestEntry)),
      List.Perm (l.foldl (fun a x => insertStable x a) acc) (acc ++ l) := by
  intro l
  induction l with
  | nil => intro acc; simp
  | cons x xs ih =>
    intro acc
    rw [List.foldl_cons]
    have h1 := ih (insertStable x acc)
    have h2 : List.Perm (insertStable x acc ++ xs) ((x :: acc) ++ xs) :=
      (insertStable_perm x acc).append_right xs
    have h3 : List.Perm ((x :: acc) ++ xs) (acc ++ x :: xs) := List.perm_middle.symm
    exact (h1.trans h2).trans h3

lemma sortByPrio_perm (l : List (String × BestEntry)) : List.Perm (sortByPrio l) l := by
  simpa [sortByPrio] using sortFoldl_perm l []

lemma insertStable_sorted (x : String × BestEntry) (l : List (String × BestEntry))
    (hs : l.Pairwise fun a b => a.2.prio ≤ b.2.prio) :
    (insertStable x l).Pairwise fun a b => a.2.prio ≤ b.2.prio := by
  induction l with
  | nil => simp [insertStable]
  | cons y ys ih =>
    rcases List.pairwise_cons.mp hs with ⟨hy, hys⟩
    by_cases h : y.2.prio ≤ x.2.prio
    · rw [insertStable, if_pos h]
      refine List.pairwise_cons.mpr ⟨?_, ih hys⟩
      intro z hz
      have hz' : z ∈ x :: ys := (insertStable_perm x ys).mem_iff.mp hz
      rcases List.mem_cons.mp hz' with hz' | hz'
      · subst hz'; exact h
      · exact hy z hz'
    · rw [insertStable, if_neg h]
      refine List.pairwise_cons.mpr ⟨?_, hs⟩
      intro z hz
      rcases List.mem_cons.mp hz with hz | hz
      · subst hz; exact le_of_not_le h
      · exact le_trans (le_of_not_le h) (hy z hz)

lemma filter_insertStable (x : String × BestEntry) (l : List (String × BestEntry))
    (hs : l.Pairwise fun a b => a.2.prio ≤ b.2.prio) (r : ℕ) :
    (insertStable x l).filter (fun kv => decide (kv.2.prio = r)) =
      (l ++ [x]).filter fun kv => decide (kv.2.prio = r) := by
  induction l with
  | nil => simp [insertStable]
  | cons y ys ih =>
    rcases List.pairwise_cons.mp hs with ⟨hy, hys⟩
    by_cases h : y.2.prio ≤ x.2.prio
    · rw [insertStable, if_pos h]
      simp only [List.filter_cons, List.cons_append, ih hys]
    · rw [insertStable, if_neg h]
      by_cases hx : x.2.prio = r
      · have h1 : (y :: ys).filter (fun kv => decide (kv.2.prio = r)) = [] := by
          rw [List.filter_eq_nil_iff]
          intro z hz
          simp only [decide_eq_true_eq]
          intro hzr
          apply h
          have hyz : y.2.prio ≤ z.2.prio := by
            rcases List.mem_cons.mp hz with hz' | hz'
            · exact le_of_eq (by rw [hz'])
            · exact hy z hz'
          exact le_trans hyz (le_of_eq (hzr.trans hx.symm))
        rw [List.filter_append, h1]
        simp [List.filter_cons, hx, h1]
      · rw [List.filter_append]
        simp [List.filter_cons, hx]

lemma sortFoldl_go (r : ℕ) :
    ∀ (l acc : List (String × BestEntry)),
      acc.Pairwise (fun a b => a.2.prio ≤ b.2.prio) →
      (l.foldl (fun a x => insertStable x a) acc).Pairwise
          (fun a b => a.2.prio ≤ b.2.prio) ∧
        (l.foldl (fun a x => insertStable x a) acc).filter
            (fun kv => decide (kv.2.prio = r)) =
          acc.filter (fun kv => decide (kv.2.prio = r)) ++
            l.filter fun kv => decide (kv.2.prio = r) := by
  intro l
  induction l with
  | nil => intro acc hacc; simp [hacc]
  | cons x xs ih =>
    intro acc hacc
    obtain ⟨hsorted, hfilter⟩ := ih (insertStable x acc) (insertStable_sorted x acc hacc)
    refine ⟨by simpa [List.foldl_cons] using hsorted, ?_⟩
    rw [List.foldl_cons]
    rw [hfilter, filter_insertStable x acc hacc r, List.filter_append]
    by_cases hxr : x.2.prio = r <;> simp [List.filter_cons, hxr]

lemma sortByPrio_sorted (l : List (String × BestEntry)) :
    (sortByPrio l).Pairwise fun a b => a.2.prio ≤ b.2.prio :=
  (sortFoldl_go 0 l [] (by simp)).1

lemma filter_sortByPrio (l : List (String × BestEntry)) (r : ℕ) :
    (sortByPrio l).filter (fun kv => decide (kv.2.prio = r)) =
      l.filter fun kv => decide (kv.2.prio = r) := by
  have := (sortFoldl_go r l [] (by simp)).2
  simpa [sortByPrio] using this

/-! ### Key order and provenance of the `best` dict -/

lemma map_fst_step (now : ℤ) (b : List (String × BestEntry)) (o : RawOffer) :
    (step now b o).map Prod.fst = keyStep (b.map Prod.fst) o := by
  unfold step keyStep
  by_cases h0 : o.otype = ""
  · simp [h0]
  · simp only [if_neg h0]
    by_cases hmem : o.platform ∈ b.map Prod.fst
    · rw [if_pos hmem]
      cases hcur : lookupA b o.platform with
      | none => exact absurd hmem ((lookupA_eq_none_iff b o.platform).mp hcur)
      | some cur =>
        by_cases h1 : (mkEntry o now).prio < cur.prio
        · simp [h1, map_fst_updateAssoc_mem b o.platform _ hmem]
        · by_cases h2 : (mkEntry o now).prio = cur.prio
          · simp only [if_neg h1, if_pos h2]
            cases hp : price_amount o with
            | none => simp
            | some p =>
              cases hc : cur.price_amount with
              | none => simp [map_fst_updateAssoc_mem b o.platform _ hmem]
              | some c =>
                by_cases h3 : p < c
                · simp [h3, map_fst_updateAssoc_mem b o.platform _ hmem]
                · simp [h3]
          · simp [h1, h2]
    · rw [if_neg hmem]
      have hnone : lookupA b o.platform = none :=
        (lookupA_eq_none_iff b o.platform).mpr hmem
      rw [hnone]
      exact map_fst_updateAssoc_not_mem b o.platform _ hmem

lemma map_fst_foldl_step (now : ℤ) :
    ∀ (l : List RawOffer) (b : List (String × BestEntry)),
      (l.foldl (step now) b).map Prod.fst = l.foldl keyStep (b.map Prod.fst) := by
  intro l
  induction l with
  | nil => intro b; rfl
  | cons o rest ih =>
    intro b
    rw [List.foldl_cons, List.foldl_cons, ih, map_fst_step]

lemma buildBest_keys (now : ℤ) (offers : List RawOffer) :
    (buildBest now offers).map Prod.fst = firstOccurrences offers := by
  simpa [buildBest, firstOccurrences] using map_fst_foldl_step now offers []

lemma foldl_keyStep_nodup :
    ∀ (l : List RawOffer) (acc : List String),
      acc.Nodup → (l.foldl keyStep acc).Nodup := by
  intro l
  induction l with
  | nil => intro acc h; exact h
  | cons o rest ih =>
    intro acc h
    rw [List.foldl_cons]
    apply ih
    unfold keyStep
    by_cases h0 : o.otype = ""
    · simpa [h0] using h
    · simp only [if_neg h0]
      by_cases hmem : o.platform ∈ acc
      · simpa [hmem] using h
      · simp only [if_neg hmem]
        refine List.nodup_append.mpr ⟨h, by simp, ?_⟩
        intro x hx hx'
        rw [List.mem_singleton] at hx'
        subst hx'
        exact hmem hx

lemma firstOccurrences_nodup (offers : List RawOffer) :
    (firstOccurrences offers).Nodup :=
  foldl_keyStep_nodup offers [] (by simp)

lemma activePlatforms_cons (o : RawOffer) (l : List RawOffer) :
    activePlatforms (o :: l) =
      if o.otype = "" then activePlatforms l else o.platform :: activePlatforms l := by
  unfold activePlatforms
  by_cases h : o.otype = "" <;> simp [List.filter_cons, h]

lemma mem_foldl_keyStep :
    ∀ (l : List RawOffer) (acc : List String) (P : String),
      P ∈ l.foldl keyStep acc ↔ P ∈ acc ∨ P ∈ activePlatforms l := by
  intro l
  induction l with
  | nil => intro acc P; simp [activePlatforms]
  | cons o rest ih =>
    intro acc P
    rw [List.foldl_cons, ih, activePlatforms_cons]
    unfold keyStep
    by_cases h0 : o.otype = ""
    · simp [h0]
    · simp only [if_neg h0]
      by_cases hmem : o.platform ∈ acc
      · rw [if_pos hmem]
        constructor
        · rintro (h | h)
          · exact Or.inl h
          · exact Or.inr (List.mem_cons_of_mem _ h)
        · rintro (h | h)
          · exact Or.inl h
          · rcases List.mem_cons.mp h with h | h
            · exact Or.inl (h ▸ hmem)
            · exact Or.inr h
      · rw [if_neg hmem]
        simp only [List.mem_append, List.mem_singleton, List.mem_cons]
        tauto

lemma mem_firstOccurrences (offers : List RawOffer) (P : String) :
    P ∈ firstOccurrences offers ↔ P ∈ activePlatforms offers := by
  simpa [firstOccurrences] using mem_foldl_keyStep offers [] P

lemma step_eq_or (now : ℤ) (b : List (String × BestEntry)) (o : RawOffer) :
    step now b o = b ∨
      step now b o = updateAssoc b o.platform (mkEntry o now) := by
  unfold step
  by_cases h0 : o.otype = ""
  · simp [h0]
  · simp only [if_neg h0]
    cases lookupA b o.platform with
    | none => exact Or.inr rfl
    | some cur =>
      by_cases h1 : (mkEntry o now).prio < cur.prio
      · simp [h1]
      · by_cases h2 : (mkEntry o now).prio = cur.prio
        · simp only [if_neg h1, if_pos h2]
          cases price_amount o with
          | none => simp
          | some p =>
            cases cur.price_amount with
            | none => simp
            | some c =>
              by_cases h3 : p < c
              · simp [h3]
              · simp [h3]
        · simp [h1, h2]

lemma step_subset (now : ℤ) (b : List (String × BestEntry)) (o : RawOffer)
    {kv : String × BestEntry} (h : kv ∈ step now b o) :
    kv = (o.platform, mkEntry o now) ∨ kv ∈ b := by
  rcases step_eq_or now b o with he | he
  · rw [he] at h; exact Or.inr h
  · rw [he] at h; exact mem_updateAssoc h

lemma mem_foldl_step (now : ℤ) :
    ∀ (l : List RawOffer) (b : List (String × BestEntry)) (kv : String × BestEntry),
      kv ∈ l.foldl (step now) b →
      kv ∈ b ∨ ∃ o ∈ l, kv = (o.platform, mkEntry o now) := by
  intro l
  induction l with
  | nil => intro b kv h; exact Or.inl h
  | cons o rest ih =>
    intro b kv h
    rw [List.foldl_cons] at h
    rcases ih (step now b o) kv h with h' | ⟨o', ho', h2⟩
    · rcases step_subset now b o h' with h'' | h''
      · exact Or.inr ⟨o, List.mem_cons_self _ _, h''⟩
      · exact Or.inl h''
    · exact Or.inr ⟨o', List.mem_cons_of_mem _ ho', h2⟩

lemma mem_buildBest (now : ℤ) (offers : List RawOffer) {kv : String × BestEntry}
    (h : kv ∈ buildBest now offers) :
    ∃ o ∈ offers, kv = (o.platform, mkEntry o now) := by
  rcases mem_foldl_step now offers [] kv h with h' | h'
  · simp at h'
  · exact h'

/-! ### Facts about `type_priority` and `label_map` -/

lemma tp_eq_99_of_not_recognized {t : String} (h : t ∉ recognizedTypes) :
    type_priority t = 99 := by
  simp only [recognizedTypes, List.mem_cons, List.not_mem_nil, or_false, not_or] at h
  obtain ⟨h1, h2, h3, h4, h5, h6⟩ := h
  simp [type_priority, h1, h2, h3, h4, h5, h6]

lemma tp_lt_of_recognized {t : String} (h : t ∈ recognizedTypes) :
    type_priority t < 99 := by
  fin_cases h <;> decide

lemma recognized_of_tp_ne {t : String} (h : type_priority t ≠ 99) :
    t ∈ recognizedTypes := by
  by_contra hc
  exact h (tp_eq_99_of_not_recognized hc)

lemma label_map_eq_none_of_not_recognized {t : String} (h : t ∉ recognizedTypes) :
    label_map t = none := by
  simp only [recognizedTypes, List.mem_cons, List.not_mem_nil, or_false, not_or] at h
  obtain ⟨h1, h2, h3, h4, h5, h6⟩ := h
  simp [label_map, h1, h2, h3, h4, h5, h6]

/-! ### Day-of-month bounds for the calendar conversion -/

lemma dayOfDoy_bounds (doy : ℕ) : 1 ≤ dayOfDoy doy ∧ dayOfDoy doy ≤ 31 := by
  unfold dayOfDoy mpOfDoy
  omega

lemma civil_day_bounds (days : ℤ) :
    1 ≤ (civilFromDays days).2.2 ∧ (civilFromDays days).2.2 ≤ 31 := by
  have hd : (civilFromDays days).2.2 =
      dayOfDoy (doyOfDoe (((days + 719468).emod 146097).toNat)) := rfl
  rw [hd]
  exact dayOfDoy_bounds _

lemma ordinalSuffix_eq_spec (d : ℕ) (h : d ≤ 31) :
    ordinalSuffix d = specOrdinalSuffix d := by
  unfold ordinalSuffix specOrdinalSuffix
  have hm : d % 100 = d := Nat.mod_eq_of_lt (by omega)
  rw [hm]

/-! ### Glue lemmas about `parse_streaming` -/

lemma parse_streaming_some (now : ℤ) (offers : List RawOffer) :
    parse_streaming now (some offers) =
      (sortByPrio (buildBest now offers)).map fun kv => toNormalized kv.1 kv.2 := by
  cases offers with
  | nil => rfl
  | cons o rest => rfl

lemma filter_key_length (P : String) :
    ∀ (S : List (String × BestEntry)), (S.map Prod.fst).Nodup →
      (S.filter fun kv => decide (kv.1 = P)).length =
        if P ∈ S.map Prod.fst then 1 else 0 := by
  intro S
  induction S with
  | nil => intro _; simp
  | cons kv rest ih =>
    intro h
    rw [List.map_cons, List.nodup_cons] at h
    obtain ⟨hnot, hrest⟩ := h
    by_cases hP : kv.1 = P
    · have hPn : P ∉ List.map Prod.fst rest := fun hm => hnot (by rw [hP]; exact hm)
      simp [List.filter_cons, hP, ih hrest, hPn]
    · by_cases hm : P ∈ List.map Prod.fst rest <;>
        simp [List.filter_cons, hP, ih hrest, hm, List.mem_cons, Ne.symm hP]

lemma buildBest_entry_prio (now : ℤ) (offers : List RawOffer)
    {kv : String × BestEntry} (h : kv ∈ buildBest now offers) :
    kv.2.prio = type_priority kv.2.mtype := by
  obtain ⟨o, _, hkv⟩ := mem_buildBest now offers h
  rw [hkv]
  rfl

lemma digitChar_isDigit {m : ℕ} (h : m < 10) : (Nat.digitChar m).isDigit = true := by
  have hall : ∀ m' < 10, (Nat.digitChar m').isDigit = true := by decide
  exact hall m h

lemma rat_floor_eq_intFloor (q : ℚ) : Rat.floor q = ⌊q⌋ := by
  rw [Rat.floor_def', Rat.floor_def]

lemma formatFixed2_half25 : formatFixed2 ((25 : ℚ) / 2) = "12.50" := by
  have hfl : Rat.floor ((25 : ℚ) / 2 * 100 + 1 / 2) = 1250 := by
    rw [rat_floor_eq_intFloor]
    norm_num
  simp only [formatFixed2]
  rw [hfl]
  decide

lemma futureTs_none_of_past {t? : Option ℤ} {now : ℤ} (h : ∀ t ∈ t?, t ≤ now) :
    futureTs t? now = none := by
  cases t? with
  | none => rfl
  | some t =>
    have ht := h t (Option.mem_def.mpr rfl)
    simp [futureTs, not_lt.mpr ht]

/-- C9: when the raw offer input is empty or absent (including a failed
streaming fetch, which yields `none`), the normalizer returns an empty
sequence rather than raising an error. -/
theorem C9_empty_input (now : ℤ) :
    parse_streaming now none = [] ∧ parse_streaming now (some []) = [] :=
  ⟨rfl, rfl⟩

/-- C8: for every timestamp, the date formatter produces
"Month Dayth, Year" where the suffix follows the spec's rule (day mod 100
in [11,13] gives "th", otherwise day mod 10 of 1, 2, 3 gives "st", "nd",
"rd", anything else "th"), and the ten quoted day-of-month examples yield
the quoted suffixes. -/
theorem C8_format_date :
    (∀ ts : ℤ,
      _format_date ts =
        monthName (civilFromDays (ts.ediv 86400)).2.1 ++ " " ++
          toString (civilFromDays (ts.ediv 86400)).2.2 ++
          specOrdinalSuffix (civilFromDays (ts.ediv 86400)).2.2 ++ ", " ++
          toString (civilFromDays (ts.ediv 86400)).1) ∧
    ordinalSuffix 1 = "st" ∧ ordinalSuffix 2 = "nd" ∧ ordinalSuffix 3 = "rd" ∧
    ordinalSuffix 4 = "th" ∧ ordinalSuffix 11 = "th" ∧ ordinalSuffix 12 = "th" ∧
    ordinalSuffix 13 = "th" ∧ ordinalSuffix 21 = "st" ∧ ordinalSuffix 22 = "nd" ∧
    ordinalSuffix 23 = "rd" := by
  refine ⟨?_, by decide, by decide, by decide, by decide, by decide, by decide,
    by decide, by decide, by decide, by decide⟩
  intro ts
  have hb := civil_day_bounds (ts.ediv 86400)
  simp only [_format_date]
  rw [ordinalSuffix_eq_spec _ hb.2]

/-- C7: the price formatter renders the amount with exactly two decimal
digits, prefixed "$" for "USD" and suffixed " CODE" otherwise, and an
absent amount yields the empty string; in particular 12.5 USD gives
"$12.50", 12.5 EUR gives "12.50 EUR". -/
theorem C7_format_price (o : RawOffer) :
    (o.price = none → price_formatted o = "") ∧
    (∀ a : ℚ, o.price = some (a, "USD") → price_formatted o = "$" ++ formatFixed2 a) ∧
    (∀ (a : ℚ) (cur : String), o.price = some (a, cur) → cur ≠ "USD" →
      price_formatted o = formatFixed2 a ++ " " ++ cur) ∧
    (∀ a : ℚ, ∃ (pre : String) (c1 c2 : Char),
      formatFixed2 a = pre ++ "." ++ String.mk [c1, c2] ∧
        c1.isDigit = true ∧ c2.isDigit = true) ∧
    formatFixed2 ((25 : ℚ) / 2) = "12.50" ∧
    price_formatted ⟨"P", "buy", some ((25 : ℚ) / 2, "USD"), none, none⟩ = "$12.50" ∧
    price_formatted ⟨"P", "buy", some ((25 : ℚ) / 2, "EUR"), none, none⟩ = "12.50 EUR" ∧
    price_formatted ⟨"P", "buy", none, none, none⟩ = "" := by
  refine ⟨?_, ?_, ?_, ?_, formatFixed2_half25,
    by simp [price_formatted, formatFixed2_half25],
    by simp [price_formatted, formatFixed2_half25], rfl⟩
  · intro h; simp [price_formatted, h]
  · intro a h; simp [price_formatted, h]
  · intro a cur h hne; simp [price_formatted, h, hne]
  · intro a
    refine ⟨(if Rat.floor (a * 100 + 1 / 2) < 0 then "-" else "") ++
        toString ((Rat.floor (a * 100 + 1 / 2)).natAbs / 100),
      Nat.digitChar ((Rat.floor (a * 100 + 1 / 2)).natAbs / 10 % 10),
      Nat.digitChar ((Rat.floor (a * 100 + 1 / 2)).natAbs % 10), rfl, ?_, ?_⟩
    · exact digitChar_isDigit (Nat.mod_lt _ (by norm_num))
    · exact digitChar_isDigit (Nat.mod_lt _ (by norm_num))

theorem C7_format_price_witness :
    price_formatted ⟨"P", "buy", some ((25 : ℚ) / 2, "USD"), none, none⟩ =
      "$" ++ formatFixed2 ((25 : ℚ) / 2) :=
  (C7_format_price ⟨"P", "buy", some ((25 : ℚ) / 2, "USD"), none, none⟩).2.1
    ((25 : ℚ) / 2) rfl

/-- C4: for every offer and nonnegative reference time, a present
`availableSince` strictly after the reference time renders as the
formatted date (taking precedence over any expiry); otherwise a present
`expiresOn` strictly after the reference time renders as
"until <formatted date>"; otherwise the availability string is empty. -/
theorem C4_display_availability (o : RawOffer) (now : ℤ) (hnow : 0 ≤ now) :
    (∀ a : ℤ, o.availableSince = some a → now < a →
      date_str o now = _format_date a) ∧
    (∀ e : ℤ, (∀ a ∈ o.availableSince, a ≤ now) → o.expiresOn = some e → now < e →
      date_str o now = "until " ++ _format_date e) ∧
    ((∀ a ∈ o.availableSince, a ≤ now) → (∀ e ∈ o.expiresOn, e ≤ now) →
      date_str o now = "") := by
  refine ⟨?_, ?_, ?_⟩
  · intro a ha hfut
    have hne : a ≠ 0 := by omega
    simp [date_str, futureTs, ha, hne, hfut]
  · intro e hpast he hfut
    have hne : e ≠ 0 := by omega
    rw [date_str, futureTs_none_of_past hpast]
    simp [futureTs, he, hne, hfut]
  · intro hpa hpe
    rw [date_str, futureTs_none_of_past hpa, futureTs_none_of_past hpe]

theorem C4_display_availability_witness :
    (0 : ℤ) ≤ 150 ∧
      date_str ⟨"P", "buy", none, some 100, some 200⟩ 150 =
        "until " ++ _format_date 200 := by
  refine ⟨by decide, ?_⟩
  refine (C4_display_availability ⟨"P", "buy", none, some 100, some 200⟩ 150
    (by decide)).2.1 200 ?_ rfl (by decide)
  intro a ha
  simp only [Option.mem_def, Option.some.injEq] at ha
  omega

/-- C5 counterexample: on the input "A. B. C..... D. E" with bound 3 the
code truncates (5 fragments) to "A. B. C..", which ends in two dots, so
the truncated result does not always end in exactly one ".". -/
theorem C5_truncate_counterexample :
    truncate_plot "A. B. C..... D. E" 3 = "A. B. C.." ∧
    3 < (splitDotSpace (replaceEllipsis ("A. B. C..... D. E" : String).data)).length ∧
    ¬ endsInExactlyOneDot (truncate_plot "A. B. C..... D. E" 3) := by
  refine ⟨by decide, by decide, ?_⟩
  rw [show truncate_plot "A. B. C..... D. E" 3 = "A. B. C.." from by decide]
  intro h
  exact h.2 (by decide)

/-- C5 (amended): for a positive sentence bound, `truncate_plot` treats
"..." as ".", splits on ". ", returns the input unchanged when the
fragment count is at most the bound, and otherwise returns the first
`maxS` fragments joined with ". " with a "." appended only when the
joined text does not already end in one — so the result always ends in
"." but may end in more than one; the two quoted examples hold. -/
theorem C5_truncate_amended (plot : String) (maxS : ℕ) (h1 : 1 ≤ maxS) :
    ((splitDotSpace (replaceEllipsis plot.data)).length ≤ maxS →
      truncate_plot plot maxS = plot) ∧
    (maxS < (splitDotSpace (replaceEllipsis plot.data)).length →
      (truncate_plot plot maxS).data.getLast? = some '.' ∧
      ((truncate_plot plot maxS).data =
          List.intercalate ['.', ' ']
            ((splitDotSpace (replaceEllipsis plot.data)).take maxS) ∨
        (truncate_plot plot maxS).data =
          List.intercalate ['.', ' ']
            ((splitDotSpace (replaceEllipsis plot.data)).take maxS) ++ ['.'])) ∧
    truncate_plot "A. B. C. D." 3 = "A. B. C." ∧
    truncate_plot "A. B." 3 = "A. B." := by
  refine ⟨?_, ?_, by decide, by decide⟩
  · intro hle
    simp only [truncate_plot]
    by_cases h0 : plot = "" ∨ plot = "N/A"
    · rw [if_pos h0]
    · rw [if_neg h0, if_pos hle]
  · intro hgt
    have h0 : ¬ (plot = "" ∨ plot = "N/A") := by
      rintro (h | h) <;> subst h
      · have hc : (splitDotSpace (replaceEllipsis ("" : String).data)).length = 1 := by
          decide
        omega
      · have hc : (splitDotSpace (replaceEllipsis ("N/A" : String).data)).length = 1 := by
          decide
        omega
    simp only [truncate_plot]
    rw [if_neg h0, if_neg (not_le.mpr hgt)]
    by_cases hend :
        endsWithDot (List.intercalate ['.', ' ']
          ((splitDotSpace (replaceEllipsis plot.data)).take maxS)) = true
    · rw [if_pos hend]
      exact ⟨of_decide_eq_true hend, Or.inl rfl⟩
    · rw [if_neg hend]
      refine ⟨?_, Or.inr rfl⟩
      show (List.intercalate ['.', ' ']
          ((splitDotSpace (replaceEllipsis plot.data)).take maxS) ++ ['.']).getLast? =
        some '.'
      simp

theorem C5_truncate_amended_witness :
    (1 : ℕ) ≤ 3 ∧ truncate_plot "A. B. C. D." 3 = "A. B. C." :=
  ⟨by decide, (C5_truncate_amended "A. B. C. D." 3 (by decide)).2.2.1⟩

/-- C2 counterexample: two equal-rank subscription offers on platforms
"b" then "a" come out in insertion order ["b", "a"], which is not sorted
by platform name under the claimed ordinal tie-break. -/
theorem C2_output_order_counterexample :
    parse_streaming 0 (some [cexB, cexA]) =
      [toNormalized "b" (mkEntry cexB 0), toNormalized "a" (mkEntry cexA 0)] ∧
    ¬ List.Pairwise specOutOrder (parse_streaming 0 (some [cexB, cexA])) :=
  ⟨by decide, by decide⟩

/-- C2 (amended): the output is ordered ascending by the selected offer
type's priority rank; entries of equal rank keep the order in which their
platforms were first inserted into the best-offer dict, i.e. the order of
first appearance among the non-skipped input offers — not platform-name
order. -/
theorem C2_output_order (now : ℤ) (offers : List RawOffer) :
    List.Pairwise
      (fun a b => type_priority a.type ≤ type_priority b.type)
      (parse_streaming now (some offers)) ∧
    (∀ r : ℕ,
      ((parse_streaming now (some offers)).filter
          (fun e => decide (type_priority e.type = r))).map NormalizedOffer.platform =
        ((buildBest now offers).filter
          (fun kv => decide (kv.2.prio = r))).map Prod.fst) ∧
    (buildBest now offers).map Prod.fst = firstOccurrences offers := by
  refine ⟨?_, ?_, buildBest_keys now offers⟩
  · rw [parse_streaming_some, List.pairwise_map]
    have hs := sortByPrio_sorted (buildBest now offers)
    refine hs.imp_of_mem ?_
    intro a b ha hb hab
    have hpa : a.2.prio = type_priority a.2.mtype :=
      buildBest_entry_prio now offers ((sortByPrio_perm _).mem_iff.mp ha)
    have hpb : b.2.prio = type_priority b.2.mtype :=
      buildBest_entry_prio now offers ((sortByPrio_perm _).mem_iff.mp hb)
    show type_priority a.2.mtype ≤ type_priority b.2.mtype
    rw [← hpa, ← hpb]
    exact hab
  · intro r
    rw [parse_streaming_some, List.filter_map]
    have hstep2 :
        (sortByPrio (buildBest now offers)).filter
            ((fun e => decide (type_priority e.type = r)) ∘
              fun kv => toNormalized kv.1 kv.2) =
          (sortByPrio (buildBest now offers)).filter
            fun kv => decide (kv.2.prio = r) := by
      apply List.filter_congr
      intro kv hkv
      have hp : kv.2.prio = type_priority kv.2.mtype :=
        buildBest_entry_prio now offers ((sortByPrio_perm _).mem_iff.mp hkv)
      show decide (type_priority kv.2.mtype = r) = decide (kv.2.prio = r)
      rw [hp]
    rw [hstep2, filter_sortByPrio, List.map_map]
    rfl

/-- C3: the output contains exactly one entry for each distinct platform
appearing among the non-skipped input offers, and none for any other
platform. -/
theorem C3_unique_per_platform (now : ℤ) (offers : List RawOffer) (P : String) :
    ((parse_streaming now (some offers)).filter
        (fun e => decide (e.platform = P))).length =
      if P ∈ activePlatforms offers then 1 else 0 := by
  rw [parse_streaming_some, List.filter_map, List.length_map]
  have hnodup : ((sortByPrio (buildBest now offers)).map Prod.fst).Nodup := by
    rw [((sortByPrio_perm (buildBest now offers)).map Prod.fst).nodup_iff]
    rw [buildBest_keys]
    exact firstOccurrences_nodup offers
  have hlen := filter_key_length P (sortByPrio (buildBest now offers)) hnodup
  have hpred :
      ((sortByPrio (buildBest now offers)).filter
          ((fun e => decide (e.platform = P)) ∘ fun kv => toNormalized kv.1 kv.2)) =
        (sortByPrio (buildBest now offers)).filter fun kv => decide (kv.1 = P) := rfl
  rw [hpred, hlen]
  by_cases hm : P ∈ activePlatforms offers
  · have hmem : P ∈ (sortByPrio (buildBest now offers)).map Prod.fst := by
      apply (((sortByPrio_perm (buildBest now offers)).map Prod.fst).mem_iff).mpr
      rw [buildBest_keys]
      exact (mem_firstOccurrences offers P).mpr hm
    rw [if_pos hmem, if_pos hm]
  · have hmem : P ∉ (sortByPrio (buildBest now offers)).map Prod.fst := by
      intro hc
      apply hm
      rw [← mem_firstOccurrences offers P, ← buildBest_keys now offers]
      exact (((sortByPrio_perm (buildBest now offers)).map Prod.fst).mem_iff).mp hc
    rw [if_neg hmem, if_neg hm]

/-- C6: an unrecognized offer type gets priority rank 99 (after all six
recognized types, each of which ranks below 99), its display label is the
Python-capitalized raw type string ("rent_bundle" becomes "Rent_bundle"),
and on a platform whose group contains a recognized-type offer the
selected best entry always has a recognized type. -/
theorem C6_unrecognized_type :
    (∀ t : String, t ∉ recognizedTypes → type_priority t = 99) ∧
    (∀ t ∈ recognizedTypes, type_priority t < 99) ∧
    (∀ t : String, t ∉ recognizedTypes → labelOf t = pyCapitalize t) ∧
    pyCapitalize "rent_bundle" = "Rent_bundle" ∧
    type_priority "rent_bundle" = 99 ∧
    (∀ (now : ℤ) (offers : List RawOffer) (P : String) (b : BestEntry),
      lookupA (buildBest now offers) P = some b →
      (∃ o ∈ offerGroup offers P, o.otype ∈ recognizedTypes) →
      b.mtype ∈ recognizedTypes) := by
  refine ⟨fun t ht => tp_eq_99_of_not_recognized ht,
    fun t ht => tp_lt_of_recognized ht,
    fun t ht => by simp [labelOf, label_map_eq_none_of_not_recognized ht],
    by decide, by decide, ?_⟩
  rintro now offers P b hb ⟨o, ho, hrec⟩
  rw [lookupA_buildBest] at hb
  have hG : offerGroup offers P ≠ [] := by
    intro h
    rw [h] at ho
    exact List.not_mem_nil o ho
  obtain ⟨b', hb', hprov, hrank, _⟩ := groupBest_spec now (offerGroup offers P) hG
  have hbb : b' = b := by
    have h' := hb.symm.trans hb'
    injection h' with h'
    exact h'.symm
  subst hbb
  obtain ⟨o', _, hmk⟩ := hprov
  have hle : b'.prio ≤ type_priority o.otype := hrank o ho
  have hlt : type_priority o.otype < 99 := tp_lt_of_recognized hrec
  have hbp : b'.prio = type_priority b'.mtype := by rw [hmk]; rfl
  refine recognized_of_tp_ne ?_
  rw [← hbp]
  omega

theorem C6_unrecognized_type_witness :
    "rent_bundle" ∉ recognizedTypes ∧
    type_priority "rent_bundle" = 99 ∧
    labelOf "rent_bundle" = pyCapitalize "rent_bundle" :=
  ⟨by decide, C6_unrecognized_type.1 "rent_bundle" (by decide),
    C6_unrecognized_type.2.2.1 "rent_bundle" (by decide)⟩

/-- C1: for every input and every non-empty platform group, the selected
best entry comes from the group, has the minimal priority rank of the
group, and at that rank its known price is a lower bound of every known
price in the group (so a no-price offer never displaces a priced one);
the selected entry reaches the output.  The two quoted instances hold:
(buy, $9.99) then (buy, no price) keeps the $9.99 offer, and a
subscription with no price beats a priced rent offer. -/
theorem C1_best_offer_selection :
    (∀ (now : ℤ) (offers : List RawOffer) (P : String),
      offerGroup offers P ≠ [] →
      ∃ b, lookupA (buildBest now offers) P = some b ∧
        (∃ o ∈ offerGroup offers P, b = mkEntry o now) ∧
        (∀ o ∈ offerGroup offers P, b.prio ≤ type_priority o.otype) ∧
        (∀ o ∈ offerGroup offers P, type_priority o.otype = b.prio →
          ∀ p, price_amount o = some p → ∃ q, b.price_amount = some q ∧ q ≤ p) ∧
        toNormalized P b ∈ parse_streaming now (some offers)) ∧
    lookupA (buildBest 0 [exBuyPriced, exBuyNoPrice]) "Shop" =
      some (mkEntry exBuyPriced 0) ∧
    lookupA (buildBest 0 [exRentPriced, exSubNoPrice]) "Flix" =
      some (mkEntry exSubNoPrice 0) := by
  refine ⟨?_,
    by simp [buildBest, step, lookupA, updateAssoc, mkEntry, type_priority,
      price_amount, exBuyPriced, exBuyNoPrice],
    by simp [buildBest, step, lookupA, updateAssoc, mkEntry, type_priority,
      price_amount, exRentPriced, exSubNoPrice]⟩
  intro now offers P hG
  obtain ⟨b, hb, hprov, hrank, hpo⟩ := groupBest_spec now (offerGroup offers P) hG
  have hb' : lookupA (buildBest now offers) P = some b := by
    rw [lookupA_buildBest]
    exact hb
  refine ⟨b, hb', hprov, hrank, hpo, ?_⟩
  have hmem : (P, b) ∈ buildBest now offers := lookupA_some_mem hb'
  have hmem2 : (P, b) ∈ sortByPrio (buildBest now offers) :=
    ((sortByPrio_perm _).mem_iff).mpr hmem
  rw [parse_streaming_some]
  exact List.mem_map_of_mem _ hmem2

theorem C1_best_offer_selection_witness :
    offerGroup [exSubNoPrice] "Flix" ≠ [] ∧
    (∃ b, lookupA (buildBest 0 [exSubNoPrice]) "Flix" = some b ∧
      (∃ o ∈ offerGroup [exSubNoPrice] "Flix", b = mkEntry o 0) ∧
      (∀ o ∈ offerGroup [exSubNoPrice] "Flix", b.prio ≤ type_priority o.otype) ∧
      (∀ o ∈ offerGroup [exSubNoPrice] "Flix", type_priority o.otype = b.prio →
        ∀ p, price_amount o = some p → ∃ q, b.price_amount = some q ∧ q ≤ p) ∧
      toNormalized "Flix" b ∈ parse_streaming 0 (some [exSubNoPrice])) :=
  ⟨by decide, C1_best_offer_selection.1 0 [exSubNoPrice] "Flix" (by decide)⟩

/-- C10: a later offer at the same rank whose price is not strictly lower
(equal, higher, or absent while the current selection is priced) leaves
the running best entry — including its date and label metadata —
unchanged, so with equal prices the earlier offer of the input is kept;
concretely, two equal-rank equal-price rent offers keep the first one's
entry. -/
theorem C10_earlier_offer_kept (now : ℤ) (best : List (String × BestEntry))
    (o : RawOffer) (cur : BestEntry)
    (hl : lookupA best o.platform = some cur)
    (hrank : type_priority o.otype = cur.prio)
    (hprice : price_amount o = none ∨
      ∃ p c, price_amount o = some p ∧ cur.price_amount = some c ∧ c ≤ p) :
    step now best o = best ∧
    buildBest 0 [exEq1, exEq2] = [("Flix", mkEntry exEq1 0)] := by
  refine ⟨?_,
    by simp [buildBest, step, lookupA, updateAssoc, mkEntry, type_priority,
      price_amount, exEq1, exEq2]⟩
  by_cases h0 : o.otype = ""
  · simp only [step]
    rw [if_pos h0]
  · simp only [step]
    rw [if_neg h0]
    simp only [hl]
    have hpeq : (mkEntry o now).prio = cur.prio := hrank
    rw [if_neg (by omega : ¬ (mkEntry o now).prio < cur.prio), if_pos hpeq]
    rcases hprice with hp | ⟨p, c, hp, hc, hcp⟩
    · simp only [hp]
    · simp only [hp, hc]
      rw [if_neg (not_lt.mpr hcp)]

theorem C10_earlier_offer_kept_witness :
    step 0 [("Flix", mkEntry exEq1 0)] exEq2 = [("Flix", mkEntry exEq1 0)] ∧
    buildBest 0 [exEq1, exEq2] = [("Flix", mkEntry exEq1 0)] :=
  C10_earlier_offer_kept 0 [("Flix", mkEntry exEq1 0)] exEq2 (mkEntry exEq1 0) rfl rfl
    (Or.inr ⟨199 / 100, 199 / 100, rfl, rfl, le_refl ((199 : ℚ) / 100)⟩)
